import Mathlib

/-!
Verification of the Piolet assistant RAG core: a shallow embedding of the
chunker (`chunk_text`), the ingestion pipeline (`ingest_pdf` and
`upsert_rows` from `sync_pdfs.py` — where the for-target of line 239 shadows
`chunk_text`, so `ingest_pdf` raises `UnboundLocalError` for every document
with a usable-text page — and `process_file`/`upsert_chunks` from
`src/pg_ingest.py`), and the retrieval engine (`search_context` from
`rag_search.py`, `retrieve_context` and the retrieval step of
`answer_with_context` from `src/pg_retrieve.py`).

Python strings are modelled as `List Char`; float similarity scores as `ℚ`;
the external embedding service, the pgvector distance operator and the
trigram similarity operator are abstract function parameters; fallible
external calls are modelled with `Except`; the `rag_chunks` table is a
`List ChunkRow`, and SQL statements are modelled row by row.
-/

/-- Python `str` modelled as a list of characters. -/
abbrev Str := List Char

/-- Python whitespace characters recognised by `str.split` and `str.strip`
(space, tab, newline, carriage return, vertical tab, form feed). -/
def pyWhitespace (c : Char) : Bool :=
  c = ' ' || c = '\t' || c = '\n' || c = '\r' || c = Char.ofNat 11 || c = Char.ofNat 12

/-- Python `s.strip()`: drop whitespace from both ends. -/
def pyStrip (s : Str) : Str :=
  ((s.dropWhile pyWhitespace).reverse.dropWhile pyWhitespace).reverse

/-- Python `s.split()` (no separator argument): split on whitespace runs,
dropping empty pieces. -/
def pySplit (s : Str) : List Str :=
  (s.splitOnP pyWhitespace).filter (fun t => !t.isEmpty)

/-- Python `" ".join(tokens)`. -/
def sjoin : List Str → Str
  | [] => []
  | [t] => t
  | t :: u :: ts => t ++ ' ' :: sjoin (u :: ts)

/-- The normalisation on entry to `chunk_text` (`sync_pdfs.py` line 45):
`txt = " ".join((txt or "").split())`. -/
def normText (s : Str) : Str :=
  sjoin (pySplit s)

/-- Python `piece.rfind(" ")`: index of the last space, `none` when absent
(the source's `-1`). -/
def rfindSpace (s : Str) : Option Nat :=
  match s.reverse.findIdx? (fun c => c = ' ') with
  | some r => some (s.length - 1 - r)
  | none => none

/-- One window of the chunking loop (`sync_pdfs.py` lines 53-59):
`piece = txt[i:i+max_chars]`, and, when the window does not reach the end of
`txt`, trim back to the last space `j` when `j > 0`. -/
def pieceAt (txt : Str) (max_chars i : Nat) : Str :=
  let piece0 := (txt.drop i).take max_chars
  if i + max_chars < txt.length then
    match rfindSpace piece0 with
    | some j => if 0 < j then piece0.take j else piece0
    | none => piece0
  else piece0

/-- The index advance (`sync_pdfs.py` line 65):
`i += max(1, len(piece) - overlap)`. -/
def chunkAdvance (txt : Str) (max_chars overlap i : Nat) : Nat :=
  i + max 1 ((pieceAt txt max_chars i).length - overlap)

/-- The `while i < len(txt)` loop of `chunk_text` (`sync_pdfs.py` lines
52-65): emit each window whose stripped text is non-empty, always advance. -/
def chunkLoop (txt : Str) (max_chars overlap : Nat) (i : Nat) : List Str :=
  if h : i < txt.length then
    if (pyStrip (pieceAt txt max_chars i)).isEmpty then
      chunkLoop txt max_chars overlap (chunkAdvance txt max_chars overlap i)
    else
      pieceAt txt max_chars i :: chunkLoop txt max_chars overlap (chunkAdvance txt max_chars overlap i)
  else []
termination_by txt.length - i
decreasing_by
  all_goals
    have h1 : 1 ≤ max 1 ((pieceAt txt max_chars i).length - overlap) := Nat.le_max_left _ _
    simp only [chunkAdvance]
    omega

/-- `chunk_text` (`sync_pdfs.py` lines 41-67): normalise, return the whole
text as a single chunk when it fits in `max_chars` (empty result when blank),
otherwise run the sliding-window loop. -/
def chunk_text (txt : Str) (max_chars : Nat := 1200) (overlap : Nat := 150) : List Str :=
  let t := normText txt
  if t.length ≤ max_chars then
    if (pyStrip t).isEmpty then [] else [t]
  else chunkLoop t max_chars overlap 0

/-- Decimal digit character, as produced by Python `str(n)` one digit at a
time. -/
def digitChar (n : Nat) : Char :=
  if n = 0 then '0' else if n = 1 then '1' else if n = 2 then '2' else if n = 3 then '3'
  else if n = 4 then '4' else if n = 5 then '5' else if n = 6 then '6' else if n = 7 then '7'
  else if n = 8 then '8' else '9'

/-- Fuelled decimal printer; the fuel only serves to make the recursion
structural, `natStr` always supplies enough. -/
def natStrGo : Nat → Nat → List Char
  | 0, _ => []
  | fuel + 1, n =>
    if n < 10 then [digitChar n] else natStrGo fuel (n / 10) ++ [digitChar (n % 10)]

/-- Python `str(n)` for a non-negative integer `n`. -/
def natStr (n : Nat) : List Char :=
  natStrGo (n + 1) n

/-- Embedding vectors; the service returns fixed-dimension float vectors,
modelled as rational vectors. -/
abbrev Vec := List ℚ

/-- A row of the `rag_chunks` table (schema listed in `src/pg_retrieve.py`:
id, doc_type, doc_id, title, url, locale, chunk_index, text, embedding,
updated_at). `url`, `locale` and `embedding` are nullable columns. -/
structure ChunkRow where
  id : Str
  doc_type : Str
  doc_id : Str
  title : Str
  url : Option Str
  locale : Option Str
  chunk_index : Nat
  text : Str
  embedding : Option Vec
  updated_at : Nat
deriving DecidableEq

/-- The single-row upsert statement shared by `upsert_rows`
(`sync_pdfs.py` lines 85-96) and `upsert_chunks` (`src/pg_ingest.py` lines
123-135): `INSERT ... ON CONFLICT (id) DO UPDATE SET text, embedding, title,
url, locale, updated_at`. `now` models SQL `NOW()`. -/
def upsertRow (db : List ChunkRow) (r : ChunkRow) (now : Nat) : List ChunkRow :=
  if db.any (fun x => decide (x.id = r.id)) then
    db.map (fun x =>
      if x.id = r.id then
        { x with text := r.text, embedding := r.embedding, title := r.title,
                 url := r.url, locale := r.locale, updated_at := now }
      else x)
  else db ++ [{ r with updated_at := now }]

/-- `upsert_rows` (`sync_pdfs.py` lines 78-104): execute the upsert statement
for each row in order, in one transaction. -/
def upsert_rows (db : List ChunkRow) (rows : List ChunkRow) (now : Nat) : List ChunkRow :=
  rows.foldl (fun d r => upsertRow d r now) db

/-- One extracted PDF page as produced by `extract_text_from_pdf` /
`process_pdf_with_ocr` (`sync_pdfs.py`): page number, cleaned text, and
whether the page yielded usable text. -/
structure PageData where
  page_number : Nat
  text : Str
  has_text : Bool
deriving DecidableEq

/-- Marker for the `UnboundLocalError` raised at `sync_pdfs.py` line 237. -/
def unboundLocalChunkText : Str :=
  "UnboundLocalError: cannot access local variable chunk_text".toList

/-- The chunk-preparation loop of `ingest_pdf` (`sync_pdfs.py` lines
229-252). Because line 239 uses `chunk_text` as a for-target
(`for chunk_idx, chunk_text in enumerate(chunks)`), Python treats
`chunk_text` as a local variable throughout the body of `ingest_pdf`, so the
call `chunk_text(page_text, ...)` at line 237 references an unbound local:
the first page with usable text raises `UnboundLocalError`. Pages without
usable text are skipped (`continue`); when no page has usable text the loop
finishes having built nothing. -/
def preparePageChunks : List PageData → Except Str Unit
  | [] => .ok ()
  | p :: ps => if p.has_text then .error unboundLocalChunkText else preparePageChunks ps

/-- `ingest_pdf` (`sync_pdfs.py` lines 195-286); extraction is external, the
model starts from the extracted `pages`. If any page has usable text, the
preparation loop raises `UnboundLocalError` at line 237 (see
`preparePageChunks`); no handler inside `ingest_pdf` catches it, the raise
precedes every database write (so the table is untouched) and the
embedding/upsert stages of lines 258-286 are unreachable. Otherwise
`all_chunks` stays empty and the function logs a warning and returns 0
(lines 254-256), also without writing. The metadata arguments are unused
because no chunk record is ever built. -/
def ingest_pdf (pages : List PageData) (doc_type doc_id title : Str) (locale : Str)
    (base_url : Option Str) (db : List ChunkRow) : Except Str Nat × List ChunkRow :=
  match preparePageChunks pages with
  | .error e => (.error e, db)
  | .ok _ => (.ok 0, db)

/-- One chunk record built by `process_file` (`src/pg_ingest.py` lines
96-110): fresh id (`idGen i` abstracts the `str(uuid.uuid4())` draw for the
`i`-th chunk), path-derived metadata passed in by the caller, hard-coded
locale `es`, and the embedding computed before the record is created.
`updated_at` is set by the database at write time. -/
def pfRow (idGen : Nat → Str) (doc_type doc_id title : Str) (url : Option Str)
    (i : Nat) (c : Str) (emb : Vec) : ChunkRow :=
  { id := idGen i, doc_type := doc_type, doc_id := doc_id, title := title, url := url,
    locale := some ("es".toList), chunk_index := i, text := c, embedding := some emb,
    updated_at := 0 }

/-- The chunk loop of `process_file` (`src/pg_ingest.py` lines 88-110): skip
blank chunks, call `get_embedding` (whose failure re-raises and aborts the
whole file, discarding the rows built so far, which are then never
upserted), skip falsy (empty) embeddings, and build each record with its
embedding already assigned. `i` is the `enumerate` index, counted over all
chunks including skipped ones. -/
def processFileLoop (embedOne : Str → Except Str Vec) (idGen : Nat → Str)
    (doc_type doc_id title : Str) (url : Option Str) :
    List Str → Nat → Except Str (List ChunkRow)
  | [], _ => .ok []
  | c :: cs, i =>
    if (pyStrip c).isEmpty then
      processFileLoop embedOne idGen doc_type doc_id title url cs (i + 1)
    else
      match embedOne c with
      | .error e => .error e
      | .ok emb =>
        if emb.isEmpty then
          processFileLoop embedOne idGen doc_type doc_id title url cs (i + 1)
        else
          match processFileLoop embedOne idGen doc_type doc_id title url cs (i + 1) with
          | .error e => .error e
          | .ok rest => .ok (pfRow idGen doc_type doc_id title url i c emb :: rest)

/-- `process_file` (`src/pg_ingest.py` lines 76-112): extraction
(`extract_text_from_file`) is an external capability, the model starts from
its output `text`; `splitF` abstracts the external
`RecursiveCharacterTextSplitter` used by `split_text_into_chunks`. A blank
file yields no chunks; otherwise the chunk loop runs. -/
def process_file (text : Str) (splitF : Str → List Str)
    (embedOne : Str → Except Str Vec) (idGen : Nat → Str)
    (doc_type doc_id title : Str) (url : Option Str) : Except Str (List ChunkRow) :=
  if (pyStrip text).isEmpty then .ok []
  else processFileLoop embedOne idGen doc_type doc_id title url (splitF text) 0

/-- `upsert_chunks` (`src/pg_ingest.py` lines 114-145): the same
`INSERT ... ON CONFLICT (id) DO UPDATE` statement as `upsert_rows`, executed
row by row in one transaction (a database failure rolls the whole
transaction back, leaving the table unchanged, which trivially preserves
every row invariant; the success path is modelled). -/
def upsert_chunks (db : List ChunkRow) (rows : List ChunkRow) (now : Nat) : List ChunkRow :=
  upsert_rows db rows now

/-- A row of a `search_context` sub-search result (`rag_search.py` lines
48-56: `SELECT doc_type, doc_id, title, url, text, chunk_index, similarity`).
-/
structure SearchResult where
  doc_type : Str
  doc_id : Str
  title : Str
  url : Option Str
  text : Str
  chunk_index : Nat
  similarity : ℚ
deriving DecidableEq

/-- The WHERE clause built in `search_context` (`rag_search.py` lines 33-45):
a `locale = %s` filter when the `locale` argument is truthy (non-empty), and
a `doc_type IN (...)` filter when `prefer_types` is truthy (a non-empty
list). -/
def rowMatches (locale : Str) (prefer_types : Option (List Str)) (r : ChunkRow) : Bool :=
  (locale.isEmpty || decide (r.locale = some locale)) &&
    (match prefer_types with
     | some (t :: ts) => decide (r.doc_type ∈ t :: ts)
     | _ => true)

/-- Projection of a table row to a `search_context` result row with the given
similarity score. -/
def toResult (sim : ℚ) (r : ChunkRow) : SearchResult :=
  { doc_type := r.doc_type, doc_id := r.doc_id, title := r.title, url := r.url,
    text := r.text, chunk_index := r.chunk_index, similarity := sim }

/-- The vector sub-search of `search_context` (`rag_search.py` lines 47-60):
filtered rows ordered by pgvector distance to the query embedding ascending,
`LIMIT k`, with `similarity = 1 - distance`. `distF` abstracts the pgvector
cosine-distance operator on the (nullable) stored embedding. -/
def vecSearch (store : List ChunkRow) (distF : Option Vec → Vec → ℚ) (q : Vec)
    (locale : Str) (prefer_types : Option (List Str)) (k : Nat) : List SearchResult :=
  ((List.insertionSort (fun a b : ChunkRow => distF a.embedding q ≤ distF b.embedding q)
      (store.filter (rowMatches locale prefer_types))).take k).map
    (fun r => toResult (1 - distF r.embedding q) r)

/-- The lexical sub-search of `search_context` (`rag_search.py` lines 62-75):
filtered rows ordered by the pg_trgm distance `text <-> query` ascending
(which equals `1 - similarity(text, query)`), `LIMIT k`, with
`similarity(text, query)` as score. `simF` abstracts the trigram similarity
operator. -/
def lexSearch (store : List ChunkRow) (simF : Str → Str → ℚ) (query : Str)
    (locale : Str) (prefer_types : Option (List Str)) (k : Nat) : List SearchResult :=
  ((List.insertionSort
      (fun a b : ChunkRow => 1 - simF a.text query ≤ 1 - simF b.text query)
      (store.filter (rowMatches locale prefer_types))).take k).map
    (fun r => toResult (simF r.text query) r)

/-- The dedup key of `search_context` (`rag_search.py` lines 83, 90): the
f-string interpolating `doc_id`, an underscore, and `chunk_index`. -/
def resKey (r : SearchResult) : Str :=
  r.doc_id ++ '_' :: natStr r.chunk_index

/-- One pass of the merge loops of `search_context` (`rag_search.py` lines
81-93): append each result whose key is not in `seen_ids`, recording the key.
-/
def addResults : List SearchResult × List Str → List SearchResult → List SearchResult × List Str
  | st, [] => st
  | (acc, seen), r :: rs =>
    if resKey r ∈ seen then addResults (acc, seen) rs
    else addResults (acc ++ [r], resKey r :: seen) rs

/-- The merge of `search_context` (`rag_search.py` lines 77-93): vector
results first, then lexical results, deduplicated via `seen_ids`. -/
def mergeResults (vec lex : List SearchResult) : List SearchResult :=
  (addResults (addResults ([], []) vec) lex).1

/-- The body of `search_context` after a successful query embedding
(`rag_search.py` lines 32-98): run both sub-searches, merge, sort by
similarity descending (`reverse=True`, stable), truncate to `k`. -/
def searchCore (store : List ChunkRow) (distF : Option Vec → Vec → ℚ)
    (simF : Str → Str → ℚ) (q : Vec) (query : Str) (k : Nat) (locale : Str)
    (prefer_types : Option (List Str)) : List SearchResult :=
  (List.insertionSort (fun a b : SearchResult => b.similarity ≤ a.similarity)
    (mergeResults (vecSearch store distF q locale prefer_types k)
      (lexSearch store simF query locale prefer_types k))).take k

/-- `search_context` (`rag_search.py` lines 21-105). `embRes` is the outcome
of `get_embedding(query)`; the whole body runs inside
`try ... except Exception: return []`, so an embedding failure is caught and
yields the empty list. -/
def search_context (embRes : Except Str Vec) (store : List ChunkRow)
    (distF : Option Vec → Vec → ℚ) (simF : Str → Str → ℚ) (query : Str) (k : Nat)
    (locale : Str) (prefer_types : Option (List Str)) : List SearchResult :=
  match embRes with
  | .error _ => []
  | .ok q => searchCore store distF simF q query k locale prefer_types

/-- A row returned by `retrieve_context` (`src/pg_retrieve.py` lines 69-101).
-/
structure RetrievedChunk where
  id : Str
  doc_type : Str
  doc_id : Str
  title : Str
  url : Option Str
  locale : Option Str
  chunk_index : Nat
  text : Str
  similarity : ℚ
deriving DecidableEq

/-- `retrieve_context` (`src/pg_retrieve.py` lines 50-110): single vector
search with filter `locale = %s OR locale IS NULL`, ordered by embedding
distance ascending, `LIMIT top_k`; the whole body runs inside
`try ... except: return []`, so an embedding failure yields the empty list. -/
def retrieve_context (embRes : Except Str Vec) (store : List ChunkRow)
    (distF : Option Vec → Vec → ℚ) (top_k : Nat) (locale : Str) : List RetrievedChunk :=
  match embRes with
  | .error _ => []
  | .ok q =>
    ((List.insertionSort (fun a b : ChunkRow => distF a.embedding q ≤ distF b.embedding q)
        (store.filter (fun r => decide (r.locale = some locale) || decide (r.locale = none)))).take
      top_k).map
      (fun r =>
        { id := r.id, doc_type := r.doc_type, doc_id := r.doc_id, title := r.title,
          url := r.url, locale := r.locale, chunk_index := r.chunk_index, text := r.text,
          similarity := 1 - distF r.embedding q })

/-- A row fetched by the retrieval step of `answer_with_context`
(`src/pg_retrieve.py` lines 188-194): `SELECT doc_id, chunk_index, text,
embedding <-> q AS dist`. -/
structure AnsRow where
  doc_id : Str
  chunk_index : Nat
  text : Str
  dist : ℚ
deriving DecidableEq

/-- The row built by the `answer_with_context` query for a stored chunk:
`SELECT doc_id, chunk_index, text, embedding <-> q AS dist`. -/
def ansRowOf (distF : Option Vec → Vec → ℚ) (emb : Vec) (r : ChunkRow) : AnsRow :=
  { doc_id := r.doc_id, chunk_index := r.chunk_index, text := r.text,
    dist := distF r.embedding emb }

/-- The retrieval step of `answer_with_context` (`src/pg_retrieve.py` lines
176-195): embed the question (not wrapped in any `try`, so failure
propagates), then fetch the `top_k` rows of the whole table ordered by
vector distance ascending — no locale filter and no lexical pass; the
`locale` argument of `answer_with_context` is never used in the query. -/
def answer_retrieval (embRes : Except Str Vec) (store : List ChunkRow)
    (distF : Option Vec → Vec → ℚ) (top_k : Nat) (locale : Str) :
    Except Str (List AnsRow) :=
  match embRes with
  | .error e => .error e
  | .ok emb =>
    .ok ((List.insertionSort (fun a b : AnsRow => a.dist ≤ b.dist)
      (store.map (ansRowOf distF emb))).take top_k)

/-- Specification-side deduplication for comparison with `mergeResults`:
keep the first occurrence of each composite key `(doc_id, chunk_index)`
(spec section 4.4 step 4), also returning the accumulated key set. -/
def dedupByPairAux : List SearchResult → List (Str × Nat) → List SearchResult × List (Str × Nat)
  | [], seen => ([], seen)
  | r :: rs, seen =>
    if (r.doc_id, r.chunk_index) ∈ seen then dedupByPairAux rs seen
    else
      let rest := dedupByPairAux rs ((r.doc_id, r.chunk_index) :: seen)
      (r :: rest.1, rest.2)

/-- Deduplication by the composite key `(doc_id, chunk_index)`, keeping first
occurrences (spec section 4.4 step 4). -/
def dedupByPair (rs : List SearchResult) : List SearchResult :=
  (dedupByPairAux rs []).1

theorem natStrGo_congr : ∀ (n f f' : Nat), n < f → n < f' → natStrGo f n = natStrGo f' n := by
  intro n
  induction n using Nat.strong_induction_on with
  | _ n ih =>
    intro f f' hf hf'
    obtain ⟨a, rfl⟩ : ∃ a, f = a + 1 := ⟨f - 1, by omega⟩
    obtain ⟨b, rfl⟩ : ∃ b, f' = b + 1 := ⟨f' - 1, by omega⟩
    simp only [natStrGo]
    by_cases h10 : n < 10
    · simp [h10]
    · simp only [if_neg h10]
      have hdiv : n / 10 < n := Nat.div_lt_self (by omega) (by omega)
      rw [ih (n / 10) hdiv a b (by omega) (by omega)]

theorem natStr_eq (n : Nat) :
    natStr n = if n < 10 then [digitChar n] else natStr (n / 10) ++ [digitChar (n % 10)] := by
  unfold natStr
  simp only [natStrGo]
  by_cases h : n < 10
  · simp [h]
  · simp only [if_neg h]
    congr 1
    exact natStrGo_congr (n / 10) n (n / 10 + 1)
      (Nat.div_lt_self (by omega) (by omega)) (Nat.lt_succ_self _)

theorem digitChar_ne_underscore (n : Nat) : digitChar n ≠ '_' := by
  unfold digitChar
  split_ifs <;> decide

theorem digitChar_inj : ∀ m < 10, ∀ n < 10, digitChar m = digitChar n → m = n := by decide

theorem natStr_ne_nil (n : Nat) : natStr n ≠ [] := by
  rw [natStr_eq]
  split_ifs <;> simp

theorem natStr_no_underscore : ∀ n : Nat, '_' ∉ natStr n := by
  intro n
  induction n using Nat.strong_induction_on with
  | _ n ih =>
    rw [natStr_eq]
    by_cases h : n < 10
    · simp only [if_pos h, List.mem_singleton]
      exact fun hc => digitChar_ne_underscore n hc.symm
    · simp only [if_neg h, List.mem_append, List.mem_singleton]
      rintro (hc | hc)
      · exact ih (n / 10) (Nat.div_lt_self (by omega) (by omega)) hc
      · exact digitChar_ne_underscore (n % 10) hc.symm

theorem natStr_inj : ∀ m n : Nat, natStr m = natStr n → m = n := by
  intro m
  induction m using Nat.strong_induction_on with
  | _ m ih =>
    intro n h
    rw [natStr_eq m, natStr_eq n] at h
    by_cases hm : m < 10 <;> by_cases hn : n < 10
    · simp only [if_pos hm, if_pos hn, List.cons.injEq] at h
      exact digitChar_inj m hm n hn h.1
    · simp only [if_pos hm, if_neg hn] at h
      have := congrArg List.length h
      simp at this
      exact absurd this (natStr_ne_nil _)
    · simp only [if_neg hm, if_pos hn] at h
      have := congrArg List.length h
      simp at this
      exact absurd this (natStr_ne_nil _)
    · simp only [if_neg hm, if_neg hn] at h
      obtain ⟨h1, h2⟩ := List.append_inj' h (by simp)
      have hdiv : m / 10 = n / 10 :=
        ih (m / 10) (Nat.div_lt_self (by omega) (by omega)) (n / 10) h1
      have hmod : m % 10 = n % 10 := by
        apply digitChar_inj (m % 10) (by omega) (n % 10) (by omega)
        simpa using h2
      omega

theorem no_underscore_split :
    ∀ (a₁ a₂ b₁ b₂ : Str), '_' ∉ b₁ → '_' ∉ b₂ →
      a₁ ++ '_' :: b₁ = a₂ ++ '_' :: b₂ → a₁ = a₂ ∧ b₁ = b₂ := by
  intro a₁
  induction a₁ with
  | nil =>
    intro a₂ b₁ b₂ hb₁ hb₂ h
    cases a₂ with
    | nil => simpa using h
    | cons c cs =>
      simp only [List.nil_append, List.cons_append, List.cons.injEq] at h
      exact absurd (h.2 ▸ List.mem_append_right cs (List.mem_cons_self _ _)) hb₁
  | cons x xs ih =>
    intro a₂ b₁ b₂ hb₁ hb₂ h
    cases a₂ with
    | nil =>
      simp only [List.cons_append, List.nil_append, List.cons.injEq] at h
      exact absurd (h.2 ▸ List.mem_append_right xs (List.mem_cons_self _ _)) hb₂
    | cons y ys =>
      simp only [List.cons_append, List.cons.injEq] at h
      obtain ⟨h1, h2⟩ := ih ys b₁ b₂ hb₁ hb₂ h.2
      exact ⟨by rw [h.1, h1], h2⟩

/-- The f-string key of a composite pair `(doc_id, chunk_index)`. -/
def pairKey (p : Str × Nat) : Str :=
  p.1 ++ '_' :: natStr p.2

theorem pairKey_inj {p q : Str × Nat} (h : pairKey p = pairKey q) : p = q := by
  obtain ⟨h1, h2⟩ :=
    no_underscore_split p.1 q.1 _ _ (natStr_no_underscore _) (natStr_no_underscore _) h
  exact Prod.ext h1 (natStr_inj _ _ h2)

theorem resKey_eq_pairKey (r : SearchResult) : resKey r = pairKey (r.doc_id, r.chunk_index) :=
  rfl

theorem mem_map_pairKey {seen : List (Str × Nat)} {p : Str × Nat} :
    pairKey p ∈ seen.map pairKey ↔ p ∈ seen := by
  constructor
  · intro h
    obtain ⟨q, hq, he⟩ := List.mem_map.mp h
    exact (pairKey_inj he) ▸ hq
  · exact fun h => List.mem_map_of_mem _ h

theorem addResults_spec :
    ∀ (rs acc : List SearchResult) (seen : List (Str × Nat)),
      addResults (acc, seen.map pairKey) rs
        = (acc ++ (dedupByPairAux rs seen).1, (dedupByPairAux rs seen).2.map pairKey) := by
  intro rs
  induction rs with
  | nil => intro acc seen; simp [addResults, dedupByPairAux]
  | cons r rs ih =>
    intro acc seen
    simp only [addResults, dedupByPairAux]
    by_cases h : (r.doc_id, r.chunk_index) ∈ seen
    · rw [if_pos (by rw [resKey_eq_pairKey]; exact mem_map_pairKey.mpr h), if_pos h]
      exact ih acc seen
    · rw [if_neg (by rw [resKey_eq_pairKey]; exact fun hc => h (mem_map_pairKey.mp hc)), if_neg h]
      have hseen : resKey r :: seen.map pairKey
          = ((r.doc_id, r.chunk_index) :: seen).map pairKey := by
        simp [resKey_eq_pairKey]
      rw [hseen, ih (acc ++ [r]) ((r.doc_id, r.chunk_index) :: seen)]
      simp

theorem dedupByPairAux_append :
    ∀ (xs ys : List SearchResult) (seen : List (Str × Nat)),
      dedupByPairAux (xs ++ ys) seen
        = ((dedupByPairAux xs seen).1 ++ (dedupByPairAux ys (dedupByPairAux xs seen).2).1,
           (dedupByPairAux ys (dedupByPairAux xs seen).2).2) := by
  intro xs
  induction xs with
  | nil => intro ys seen; simp [dedupByPairAux]
  | cons x xs ih =>
    intro ys seen
    simp only [List.cons_append, dedupByPairAux, List.append_eq]
    by_cases h : (x.doc_id, x.chunk_index) ∈ seen
    · rw [if_pos h, if_pos h, ih]
    · rw [if_neg h, if_neg h]
      simp [ih]

/-- The source's `seen_ids` merge equals deduplication of
`vector results ++ lexical results` by the composite pair
`(doc_id, chunk_index)`, keeping first occurrences. -/
theorem mergeResults_eq_dedupByPair (vec lex : List SearchResult) :
    mergeResults vec lex = dedupByPair (vec ++ lex) := by
  unfold mergeResults dedupByPair
  have h0 : (([], []) : List SearchResult × List Str)
      = (([] : List SearchResult), ([] : List (Str × Nat)).map pairKey) := rfl
  rw [h0, addResults_spec vec [] [], List.nil_append, addResults_spec lex _ _,
    dedupByPairAux_append]

theorem dedupByPairAux_nodup :
    ∀ (rs : List SearchResult) (seen : List (Str × Nat)),
      (((dedupByPairAux rs seen).1.map (fun r => (r.doc_id, r.chunk_index))).Nodup
        ∧ ∀ p ∈ (dedupByPairAux rs seen).1.map (fun r => (r.doc_id, r.chunk_index)),
            p ∉ seen) := by
  intro rs
  induction rs with
  | nil => intro seen; simp [dedupByPairAux]
  | cons r rs ih =>
    intro seen
    simp only [dedupByPairAux]
    by_cases h : (r.doc_id, r.chunk_index) ∈ seen
    · rw [if_pos h]
      exact ih seen
    · rw [if_neg h]
      obtain ⟨hnd, hmem⟩ := ih ((r.doc_id, r.chunk_index) :: seen)
      refine ⟨?_, ?_⟩
      · simp only [List.map_cons, List.nodup_cons]
        exact ⟨fun hc => (hmem _ hc) (List.mem_cons_self _ _), hnd⟩
      · simp only [List.map_cons, List.mem_cons]
        rintro p (rfl | hp)
        · exact h
        · exact fun hc => (hmem p hp) (List.mem_cons_of_mem _ hc)

theorem pieceAt_length_le (txt : Str) (mc i : Nat) : (pieceAt txt mc i).length ≤ mc := by
  have h0 : ((txt.drop i).take mc).length ≤ mc := by simp [List.length_take]
  simp only [pieceAt]
  by_cases h : i + mc < txt.length
  · rw [if_pos h]
    cases hr : rfindSpace ((txt.drop i).take mc) with
    | none => exact h0
    | some j =>
      dsimp only
      by_cases hj : 0 < j
      · rw [if_pos hj]
        calc (((txt.drop i).take mc).take j).length ≤ ((txt.drop i).take mc).length :=
              List.length_take_le' ..
          _ ≤ mc := h0
      · rw [if_neg hj]; exact h0
  · rw [if_neg h]; exact h0

theorem chunkAdvance_lt (txt : Str) (mc ov i : Nat) : i < chunkAdvance txt mc ov i := by
  have h1 : 1 ≤ max 1 ((pieceAt txt mc i).length - ov) := Nat.le_max_left _ _
  simp only [chunkAdvance]
  omega

theorem chunkLoop_length_le (txt : Str) (mc ov : Nat) :
    ∀ i, ∀ c ∈ chunkLoop txt mc ov i, c.length ≤ mc := by
  have main : ∀ n i, txt.length - i ≤ n → ∀ c ∈ chunkLoop txt mc ov i, c.length ≤ mc := by
    intro n
    induction n with
    | zero =>
      intro i hi c hc
      unfold chunkLoop at hc
      rw [dif_neg (by omega : ¬ i < txt.length)] at hc
      exact absurd hc (List.not_mem_nil c)
    | succ n ih =>
      intro i hi c hc
      unfold chunkLoop at hc
      by_cases h : i < txt.length
      · rw [dif_pos h] at hc
        have hadv : txt.length - chunkAdvance txt mc ov i ≤ n := by
          have := chunkAdvance_lt txt mc ov i
          omega
        by_cases hb : (pyStrip (pieceAt txt mc i)).isEmpty = true
        · rw [if_pos hb] at hc
          exact ih _ hadv c hc
        · rw [if_neg hb] at hc
          rcases List.mem_cons.mp hc with rfl | hc'
          · exact pieceAt_length_le txt mc i
          · exact ih _ hadv c hc'
      · rw [dif_neg h] at hc
        exact absurd hc (List.not_mem_nil c)
  exact fun i => main (txt.length - i) i le_rfl

theorem chunkLoop_count_le (txt : Str) (mc ov : Nat) :
    ∀ i, (chunkLoop txt mc ov i).length ≤ txt.length - i := by
  have main : ∀ n i, txt.length - i ≤ n → (chunkLoop txt mc ov i).length ≤ txt.length - i := by
    intro n
    induction n with
    | zero =>
      intro i hi
      unfold chunkLoop
      rw [dif_neg (by omega : ¬ i < txt.length)]
      simp
    | succ n ih =>
      intro i hi
      unfold chunkLoop
      by_cases h : i < txt.length
      · rw [dif_pos h]
        have hlt := chunkAdvance_lt txt mc ov i
        have hadv : txt.length - chunkAdvance txt mc ov i ≤ n := by omega
        have hrec := ih (chunkAdvance txt mc ov i) hadv
        by_cases hb : (pyStrip (pieceAt txt mc i)).isEmpty = true
        · rw [if_pos hb]
          omega
        · rw [if_neg hb]
          simp only [List.length_cons]
          omega
      · rw [dif_neg h]
        simp
  exact fun i => main (txt.length - i) i le_rfl

theorem mem_splitOnP_forall {α : Type} (p : α → Bool) :
    ∀ (l piece : List α), piece ∈ l.splitOnP p → ∀ c ∈ piece, p c = false := by
  intro l
  induction l with
  | nil =>
    intro piece hp c hc
    rw [List.splitOnP_nil] at hp
    rw [List.mem_singleton.mp hp] at hc
    exact absurd hc (List.not_mem_nil c)
  | cons x xs ih =>
    intro piece hp c hc
    rw [List.splitOnP_cons] at hp
    by_cases hx : p x
    · rw [if_pos hx] at hp
      rcases List.mem_cons.mp hp with rfl | hp'
      · exact absurd hc (List.not_mem_nil c)
      · exact ih piece hp' c hc
    · rw [if_neg hx] at hp
      obtain ⟨hd, tl, he⟩ := List.exists_cons_of_ne_nil (List.splitOnP_ne_nil p xs)
      rw [he, List.modifyHead_cons] at hp
      rcases List.mem_cons.mp hp with rfl | hp'
      · rcases List.mem_cons.mp hc with rfl | hc'
        · simpa using hx
        · exact ih hd (he ▸ List.mem_cons_self hd tl) c hc'
      · exact ih piece (he ▸ List.mem_cons_of_mem hd hp') c hc

theorem pySplit_facts (s : Str) :
    ∀ t ∈ pySplit s, t ≠ [] ∧ ∀ c ∈ t, pyWhitespace c = false := by
  intro t ht
  obtain ⟨hmem, hne⟩ := List.mem_filter.mp ht
  refine ⟨?_, mem_splitOnP_forall pyWhitespace s t hmem⟩
  intro hnil
  rw [hnil] at hne
  simp at hne

theorem sjoin_head (t : Str) (ts : List Str) : ∃ rest, sjoin (t :: ts) = t ++ rest := by
  cases ts with
  | nil => exact ⟨[], by simp [sjoin]⟩
  | cons u us => exact ⟨' ' :: sjoin (u :: us), rfl⟩

theorem sjoin_last :
    ∀ (tokens : List Str), tokens ≠ [] → (∀ t ∈ tokens, t ≠ []) →
      ∃ c rest, (sjoin tokens).reverse = c :: rest ∧ ∃ t ∈ tokens, c ∈ t := by
  intro tokens
  induction tokens with
  | nil => intro h; exact absurd rfl h
  | cons t ts ih =>
    intro _ hall
    cases ts with
    | nil =>
      have ht : t ≠ [] := hall t (List.mem_cons_self _ _)
      obtain ⟨c, rest, hc⟩ := List.exists_cons_of_ne_nil (fun h => ht (by simpa using h) :
        t.reverse ≠ [])
      refine ⟨c, rest, by simpa [sjoin] using hc, t, List.mem_cons_self _ _, ?_⟩
      have : c ∈ t.reverse := hc ▸ List.mem_cons_self c rest
      simpa using this
    | cons u us =>
      obtain ⟨c, rest, hc, tok, htok, hctok⟩ :=
        ih (by simp) (fun x hx => hall x (List.mem_cons_of_mem t hx))
      refine ⟨c, rest ++ [' '] ++ t.reverse, ?_, tok, List.mem_cons_of_mem t htok, hctok⟩
      show (sjoin (t :: u :: us)).reverse = _
      have : sjoin (t :: u :: us) = t ++ ' ' :: sjoin (u :: us) := rfl
      rw [this, List.reverse_append, List.reverse_cons, hc]
      simp

theorem pyStrip_normText (s : Str) : pyStrip (normText s) = normText s := by
  unfold pyStrip
  cases htk : pySplit s with
  | nil =>
    have : normText s = [] := by rw [normText, htk]; rfl
    rw [this]
    rfl
  | cons t ts =>
    have hfacts := pySplit_facts s
    have ht := hfacts t (htk ▸ List.mem_cons_self t ts)
    obtain ⟨rest, hre⟩ := sjoin_head t ts
    obtain ⟨c, t', hct⟩ := List.exists_cons_of_ne_nil ht.1
    have hfront : (normText s).dropWhile pyWhitespace = normText s := by
      have hn : normText s = c :: (t' ++ rest) := by
        rw [normText, htk, hre, hct]
        rfl
      rw [hn, List.dropWhile_cons,
        if_neg (by rw [ht.2 c (hct ▸ List.mem_cons_self c t')]; simp)]
    obtain ⟨c₂, rest₂, hrev, tok, htok, hctok⟩ :=
      sjoin_last (t :: ts) (by simp)
        (fun x hx => (hfacts x (htk ▸ hx)).1)
    have hback : (normText s).reverse.dropWhile pyWhitespace = (normText s).reverse := by
      have hn : (normText s).reverse = c₂ :: rest₂ := by rw [normText, htk]; exact hrev
      rw [hn, List.dropWhile_cons,
        if_neg (by rw [(hfacts tok (htk ▸ htok)).2 c₂ hctok]; simp)]
    rw [hfront, hback, List.reverse_reverse]

theorem preparePageChunks_error :
    ∀ (pages : List PageData), (∃ p ∈ pages, p.has_text = true) →
      preparePageChunks pages = .error unboundLocalChunkText := by
  intro pages
  induction pages with
  | nil =>
    rintro ⟨p, hp, _⟩
    exact absurd hp (List.not_mem_nil p)
  | cons p ps ih =>
    rintro ⟨q, hq, hqt⟩
    simp only [preparePageChunks]
    by_cases hp : p.has_text = true
    · rw [if_pos hp]
    · rw [if_neg hp]
      rcases List.mem_cons.mp hq with rfl | hq'
      · exact absurd hqt hp
      · exact ih ⟨q, hq', hqt⟩

theorem ingest_pdf_table_unchanged (pages : List PageData) (dt di ti lo : Str)
    (bu : Option Str) (db : List ChunkRow) :
    (ingest_pdf pages dt di ti lo bu db).2 = db := by
  unfold ingest_pdf
  cases preparePageChunks pages <;> rfl

theorem processFileLoop_isSome (embedOne : Str → Except Str Vec) (idGen : Nat → Str)
    (dt di ti : Str) (url : Option Str) :
    ∀ (cs : List Str) (i : Nat) (rows : List ChunkRow),
      processFileLoop embedOne idGen dt di ti url cs i = .ok rows →
      ∀ r ∈ rows, r.embedding.isSome = true := by
  intro cs
  induction cs with
  | nil =>
    intro i rows h r hr
    simp only [processFileLoop] at h
    cases h
    exact absurd hr (List.not_mem_nil r)
  | cons c cs ih =>
    intro i rows h r hr
    simp only [processFileLoop] at h
    by_cases hb : (pyStrip c).isEmpty = true
    · rw [if_pos hb] at h
      exact ih (i + 1) rows h r hr
    · rw [if_neg hb] at h
      cases he : embedOne c with
      | error e =>
        rw [he] at h
        exact Except.noConfusion h
      | ok emb =>
        rw [he] at h
        dsimp only at h
        by_cases hemp : emb.isEmpty = true
        · rw [if_pos hemp] at h
          exact ih (i + 1) rows h r hr
        · rw [if_neg hemp] at h
          cases hrec : processFileLoop embedOne idGen dt di ti url cs (i + 1) with
          | error e =>
            rw [hrec] at h
            exact Except.noConfusion h
          | ok rest =>
            rw [hrec] at h
            dsimp only at h
            injection h with h2
            subst h2
            rcases List.mem_cons.mp hr with rfl | hr'
            · rfl
            · exact ih (i + 1) rest hrec r hr'

theorem upsertRow_mem (db : List ChunkRow) (r : ChunkRow) (now : Nat) :
    ∀ x ∈ upsertRow db r now, x ∈ db ∨ x.embedding = r.embedding := by
  unfold upsertRow
  by_cases h : db.any (fun x => decide (x.id = r.id)) = true
  · rw [if_pos h]
    intro x hx
    obtain ⟨y, hy, he⟩ := List.mem_map.mp hx
    by_cases hid : y.id = r.id
    · rw [if_pos hid] at he
      right
      rw [← he]
    · rw [if_neg hid] at he
      left
      rw [← he]
      exact hy
  · rw [if_neg h]
    intro x hx
    rcases List.mem_append.mp hx with hx' | hx'
    · exact Or.inl hx'
    · right
      rw [List.mem_singleton.mp hx']

theorem upsert_rows_mem :
    ∀ (rows db : List ChunkRow) (now : Nat) (x : ChunkRow),
      x ∈ upsert_rows db rows now → x ∈ db ∨ ∃ r ∈ rows, x.embedding = r.embedding := by
  intro rows
  induction rows with
  | nil => intro db now x hx; exact Or.inl hx
  | cons r rs ih =>
    intro db now x hx
    simp only [upsert_rows, List.foldl_cons] at hx
    rcases ih (upsertRow db r now) now x hx with hx' | ⟨r', hr', he⟩
    · rcases upsertRow_mem db r now x hx' with hx'' | he
      · exact Or.inl hx''
      · exact Or.inr ⟨r, List.mem_cons_self _ _, he⟩
    · exact Or.inr ⟨r', List.mem_cons_of_mem _ hr', he⟩

/-- Claim C6: for every text longer (after the function's own normalisation)
than `max_chars`, `chunk_text` terminates in a finite number of steps — the
loop is total because the window start always advances by
`max(1, window_length - overlap)` (definition `chunkAdvance`, proved
decreasing in `chunkLoop`'s termination argument), the number of produced
fragments is bounded by the text length — and every produced fragment has
length at most `max_chars`. -/
theorem chunk_text_long_bounds (txt : Str) (max_chars overlap : Nat)
    (h : max_chars < (normText txt).length) :
    (∀ c ∈ chunk_text txt max_chars overlap, c.length ≤ max_chars)
      ∧ (chunk_text txt max_chars overlap).length ≤ (normText txt).length := by
  simp only [chunk_text]
  rw [if_neg (by omega)]
  exact ⟨chunkLoop_length_le (normText txt) max_chars overlap 0,
    by simpa using chunkLoop_count_le (normText txt) max_chars overlap 0⟩

theorem chunk_text_long_bounds_witness :
    3 < (normText ("ab cd ef".toList)).length
      ∧ ((∀ c ∈ chunk_text ("ab cd ef".toList) 3 1, c.length ≤ 3)
          ∧ (chunk_text ("ab cd ef".toList) 3 1).length
              ≤ (normText ("ab cd ef".toList)).length) :=
  ⟨by decide, chunk_text_long_bounds ("ab cd ef".toList) 3 1 (by decide)⟩

/-- Claim C7: for every pre-normalised text (a fixed point of the function's
own normalisation) of length at most `max_chars`, `chunk_text` returns
exactly one fragment equal to the text (which equals its own trim), or the
empty sequence when the text is blank (empty) after trimming. -/
theorem chunk_text_short_single (txt : Str) (max_chars overlap : Nat)
    (hnorm : normText txt = txt) (hlen : txt.length ≤ max_chars) :
    chunk_text txt max_chars overlap = if txt = [] then [] else [txt] := by
  simp only [chunk_text]
  have hstrip := pyStrip_normText txt
  rw [hnorm] at hstrip
  rw [hnorm, if_pos hlen, hstrip]
  simp [List.isEmpty_iff]

theorem chunk_text_short_single_witness :
    (normText ("hola mundo".toList) = "hola mundo".toList
        ∧ ("hola mundo".toList).length ≤ 1200)
      ∧ chunk_text ("hola mundo".toList) 1200 150
          = if ("hola mundo".toList) = [] then [] else ["hola mundo".toList] :=
  ⟨⟨by decide, by decide⟩,
    chunk_text_short_single ("hola mundo".toList) 1200 150 (by decide) (by decide)⟩

/-- Claim C10: when an upserted row's `id` collides with an existing row, the
`ON CONFLICT (id) DO UPDATE` branch only sets `text`, `embedding`, `title`,
`url`, `locale` and `updated_at`; every row's `id`, `doc_type`, `doc_id` and
`chunk_index` are unchanged by the statement, and rows with a different `id`
are untouched. -/
theorem upsertRow_conflict_frame (db : List ChunkRow) (r : ChunkRow) (now : Nat)
    (hconf : ∃ x ∈ db, x.id = r.id) :
    ((upsertRow db r now).map (fun x => (x.id, x.doc_type, x.doc_id, x.chunk_index))
        = db.map (fun x => (x.id, x.doc_type, x.doc_id, x.chunk_index)))
      ∧ (∀ x ∈ upsertRow db r now, x.id = r.id →
          x.text = r.text ∧ x.embedding = r.embedding ∧ x.title = r.title
            ∧ x.url = r.url ∧ x.locale = r.locale ∧ x.updated_at = now)
      ∧ (∀ x ∈ db, x.id ≠ r.id → x ∈ upsertRow db r now) := by
  have hcond : db.any (fun x => decide (x.id = r.id)) = true := by
    obtain ⟨x, hx, he⟩ := hconf
    simp only [List.any_eq_true, decide_eq_true_eq]
    exact ⟨x, hx, he⟩
  unfold upsertRow
  rw [if_pos hcond]
  refine ⟨?_, ?_, ?_⟩
  · rw [List.map_map]
    apply List.map_congr_left
    intro x hx
    by_cases hid : x.id = r.id <;> simp [hid]
  · intro x hx hid
    obtain ⟨y, hy, he⟩ := List.mem_map.mp hx
    by_cases hy_id : y.id = r.id
    · rw [if_pos hy_id] at he
      rw [← he]
      exact ⟨rfl, rfl, rfl, rfl, rfl, rfl⟩
    · rw [if_neg hy_id] at he
      exact absurd (he ▸ hid) hy_id
  · intro x hx hid
    exact List.mem_map.mpr ⟨x, hx, by rw [if_neg hid]⟩

def c10row0 : ChunkRow :=
  { id := "a1".toList, doc_type := "kb".toList, doc_id := "doc".toList,
    title := "t0".toList, url := none, locale := some ("es".toList), chunk_index := 7,
    text := "old".toList, embedding := some [1], updated_at := 3 }

def c10row1 : ChunkRow :=
  { id := "a1".toList, doc_type := "xx".toList, doc_id := "yy".toList,
    title := "t1".toList, url := none, locale := some ("en".toList), chunk_index := 9,
    text := "new".toList, embedding := some [2], updated_at := 0 }

theorem upsertRow_conflict_frame_witness :
    (∃ x ∈ [c10row0], x.id = c10row1.id)
      ∧ (upsertRow [c10row0] c10row1 8).map (fun x => (x.id, x.doc_type, x.doc_id, x.chunk_index))
          = [c10row0].map (fun x => (x.id, x.doc_type, x.doc_id, x.chunk_index)) :=
  ⟨by decide, (upsertRow_conflict_frame [c10row0] c10row1 8 (by decide)).1⟩

/-- Shared concrete ingestion input: one extracted page of usable text. -/
def demoPages : List PageData :=
  [{ page_number := 1, text := "hola mundo".toList, has_text := true }]

/-- A two-page input: a page without usable text (skipped by the loop)
followed by one with usable text. -/
def c1pages : List PageData :=
  [{ page_number := 1, text := [], has_text := false },
   { page_number := 2, text := "hola mundo".toList, has_text := true }]

/-- Claim C1 fails on the code: for every PDF source with at least one page
of usable text, `ingest_pdf` never returns a fragment count at all. The
for-target of `sync_pdfs.py` line 239 makes `chunk_text` a local variable of
`ingest_pdf`, so the call at line 237 raises `UnboundLocalError` on the
first usable-text page, before any chunk is built; no handler inside
`ingest_pdf` catches it, so the error is raised to the caller and the table
is untouched. Shown at a concrete two-page input and for every input with a
usable-text page. -/
theorem ingest_pdf_raises_unbound_local :
    (ingest_pdf c1pages ("kb".toList) ("doc".toList) ("T".toList) ("es".toList) none []).1
        = .error unboundLocalChunkText
    ∧ ∀ (pages : List PageData) (dt di ti lo : Str) (bu : Option Str) (db : List ChunkRow),
        (∃ p ∈ pages, p.has_text = true) →
          ingest_pdf pages dt di ti lo bu db = (.error unboundLocalChunkText, db) := by
  refine ⟨rfl, ?_⟩
  intro pages dt di ti lo bu db hp
  unfold ingest_pdf
  rw [preparePageChunks_error pages hp]

/-- Claim C2's double-ingestion scenario on the code: each ingestion of the
one-page document raises `UnboundLocalError` at `sync_pdfs.py` line 237
before building or storing any row — the first run leaves the table empty,
and re-ingestion against any table state crashes identically with the table
unchanged. No document is ever ingested, so the required
replace-rather-than-duplicate behaviour never happens (and, as spec section
9 records, even the intended code path could not realise it, since chunk
ids are fresh uuid4 draws on every run, defeating `ON CONFLICT (id)`). -/
theorem ingest_pdf_reingest_crashes :
    ingest_pdf demoPages ("kb".toList) ("doc".toList) ("T".toList) ("es".toList) none []
        = (.error unboundLocalChunkText, [])
    ∧ ∀ db : List ChunkRow,
        ingest_pdf demoPages ("kb".toList) ("doc".toList) ("T".toList) ("es".toList) none db
          = (.error unboundLocalChunkText, db) :=
  ⟨rfl, fun _ => rfl⟩

/-- Claim C9: the ingestion pipeline never persists a chunk row without its
embedding. On the `pg_ingest.process_file` path every produced row has its
embedding assigned at construction (blank chunks and falsy embeddings are
skipped, and a `get_embedding` failure aborts the whole file before
`upsert_chunks` can run), so the table after `upsert_chunks` holds only
prior rows and embedded rows. On the `sync_pdfs.ingest_pdf` path nothing is
ever persisted: the usable-text case raises before any write and the
no-text case returns 0 without writing, so the table is always returned
unchanged. -/
theorem ingestion_never_persists_without_embedding (text : Str) (splitF : Str → List Str)
    (embedOne : Str → Except Str Vec) (idGen : Nat → Str) (dt di ti : Str)
    (url : Option Str) (db : List ChunkRow) (now : Nat) (rows : List ChunkRow)
    (hok : process_file text splitF embedOne idGen dt di ti url = .ok rows) :
    (∀ r ∈ rows, r.embedding.isSome = true)
    ∧ (∀ x ∈ upsert_chunks db rows now, x ∈ db ∨ x.embedding.isSome = true)
    ∧ ∀ (pages : List PageData) (dt₂ di₂ ti₂ lo₂ : Str) (bu₂ : Option Str)
        (db₂ : List ChunkRow), (ingest_pdf pages dt₂ di₂ ti₂ lo₂ bu₂ db₂).2 = db₂ := by
  have h1 : ∀ r ∈ rows, r.embedding.isSome = true := by
    unfold process_file at hok
    by_cases hb : (pyStrip text).isEmpty = true
    · rw [if_pos hb] at hok
      cases hok
      intro r hr
      exact absurd hr (List.not_mem_nil r)
    · rw [if_neg hb] at hok
      exact processFileLoop_isSome embedOne idGen dt di ti url (splitF text) 0 rows hok
  refine ⟨h1, ?_, ?_⟩
  · intro x hx
    rcases upsert_rows_mem rows db now x hx with hx' | ⟨r, hr, he⟩
    · exact Or.inl hx'
    · right
      rw [he]
      exact h1 r hr
  · intro pages dt₂ di₂ ti₂ lo₂ bu₂ db₂
    exact ingest_pdf_table_unchanged pages dt₂ di₂ ti₂ lo₂ bu₂ db₂

def c9idGen : Nat → Str := fun n => 'p' :: natStr n

def c9chunk : ChunkRow :=
  pfRow c9idGen ("pdf".toList) ("f.pdf".toList) ("f".toList)
    (some ("file://f.pdf".toList)) 0 ("hola mundo".toList) [1]

theorem ingestion_never_persists_without_embedding_witness :
    (process_file ("hola mundo".toList) (fun t => [t]) (fun _ => .ok [1]) c9idGen
        ("pdf".toList) ("f.pdf".toList) ("f".toList) (some ("file://f.pdf".toList))
      = .ok [c9chunk])
    ∧ ((∀ r ∈ [c9chunk], r.embedding.isSome = true)
      ∧ (∀ x ∈ upsert_chunks [] [c9chunk] 7,
          x ∈ ([] : List ChunkRow) ∨ x.embedding.isSome = true)
      ∧ ∀ (pages : List PageData) (dt₂ di₂ ti₂ lo₂ : Str) (bu₂ : Option Str)
          (db₂ : List ChunkRow), (ingest_pdf pages dt₂ di₂ ti₂ lo₂ bu₂ db₂).2 = db₂) :=
  ⟨rfl, ingestion_never_persists_without_embedding ("hola mundo".toList) (fun t => [t])
    (fun _ => .ok [1]) c9idGen ("pdf".toList) ("f.pdf".toList) ("f".toList)
    (some ("file://f.pdf".toList)) [] 7 [c9chunk] rfl⟩

/-- A one-row store for the retrieval scenarios. -/
def c3row : ChunkRow :=
  { id := "r1".toList, doc_type := "kb".toList, doc_id := "d".toList, title := "t".toList,
    url := none, locale := some ("es".toList), chunk_index := 0, text := "hola".toList,
    embedding := some [1], updated_at := 0 }

/-- Claim C3 is false on the code: `search_context` wraps its whole body —
including `get_embedding(query)` — in `try ... except Exception: return []`,
so a failed query embedding yields the empty list instead of propagating.
With the same non-empty store a successful embedding returns a non-empty
result, so the swallowed failure is indistinguishable from an empty search.
-/
theorem search_context_swallows_embedding_error :
    search_context (.error ("boom".toList)) [c3row] (fun _ _ => 0) (fun _ _ => 0)
        ("q".toList) 6 ("es".toList) none = []
    ∧ search_context (.ok [1]) [c3row] (fun _ _ => 0) (fun _ _ => 0)
        ("q".toList) 6 ("es".toList) none ≠ [] := by
  decide

/-- Claim C3 amended: when computing the query's embedding fails, the search
does not propagate the error — `search_context` (and likewise
`retrieve_context`) catches the exception and returns the empty list. -/
theorem search_context_error_yields_empty (store : List ChunkRow)
    (distF : Option Vec → Vec → ℚ) (simF : Str → Str → ℚ) (query : Str) (k : Nat)
    (locale : Str) (pts : Option (List Str)) (e : Str) (top_k : Nat) (locale2 : Str) :
    search_context (.error e) store distF simF query k locale pts = []
    ∧ retrieve_context (.error e) store distF top_k locale2 = [] :=
  ⟨rfl, rfl⟩

/-- Claim C5: the hybrid merge of `search_context` concatenates vector
results first, then lexical results, deduplicating by the composite key
`(doc_id, chunk_index)` (so a chunk already included from the vector pass is
never re-added from the lexical pass — first occurrences win), and the
merged set is re-sorted by similarity descending (stably) and truncated to
`k`. The source's string-keyed `seen_ids` merge provably equals
deduplication by the composite pair. -/
theorem search_context_merge_spec (store : List ChunkRow) (distF : Option Vec → Vec → ℚ)
    (simF : Str → Str → ℚ) (q : Vec) (query : Str) (k : Nat) (locale : Str)
    (pts : Option (List Str)) :
    search_context (.ok q) store distF simF query k locale pts
      = (List.insertionSort (fun a b : SearchResult => b.similarity ≤ a.similarity)
          (dedupByPair (vecSearch store distF q locale pts k
            ++ lexSearch store simF query locale pts k))).take k := by
  show searchCore store distF simF q query k locale pts = _
  unfold searchCore
  rw [mergeResults_eq_dedupByPair]

/-- Claim C4: for every query embedding outcome, store, `k`, locale and
doc-type filter, `search_context` returns at most `k` results, never two
results with the same `(doc_id, chunk_index)`, and returns the empty list
(not an error) when the store is empty or the filters match no row. -/
theorem search_context_guarantees (embRes : Except Str Vec) (store : List ChunkRow)
    (distF : Option Vec → Vec → ℚ) (simF : Str → Str → ℚ) (query : Str) (k : Nat)
    (locale : Str) (pts : Option (List Str)) :
    (search_context embRes store distF simF query k locale pts).length ≤ k
    ∧ ((search_context embRes store distF simF query k locale pts).map
        (fun r => (r.doc_id, r.chunk_index))).Nodup
    ∧ (store = [] → search_context embRes store distF simF query k locale pts = [])
    ∧ (store.filter (rowMatches locale pts) = []
        → search_context embRes store distF simF query k locale pts = []) := by
  cases embRes with
  | error e => exact ⟨by simp [search_context], by simp [search_context], fun _ => rfl,
      fun _ => rfl⟩
  | ok q =>
    have hempty : store.filter (rowMatches locale pts) = []
        → searchCore store distF simF q query k locale pts = [] := by
      intro hf
      unfold searchCore vecSearch lexSearch
      rw [hf]
      simp [mergeResults, addResults, List.insertionSort]
    refine ⟨?_, ?_, ?_, ?_⟩
    · simpa [search_context, searchCore] using List.length_take_le k _
    · show ((searchCore store distF simF q query k locale pts).map
          (fun r => (r.doc_id, r.chunk_index))).Nodup
      unfold searchCore
      rw [mergeResults_eq_dedupByPair]
      have hnd : ((dedupByPair (vecSearch store distF q locale pts k
          ++ lexSearch store simF query locale pts k)).map
            (fun r => (r.doc_id, r.chunk_index))).Nodup :=
        (dedupByPairAux_nodup _ []).1
      have hperm := List.perm_insertionSort
        (fun a b : SearchResult => b.similarity ≤ a.similarity)
        (dedupByPair (vecSearch store distF q locale pts k
          ++ lexSearch store simF query locale pts k))
      have hnd2 := ((hperm.map (fun r => (r.doc_id, r.chunk_index))).nodup_iff).mpr hnd
      rw [List.map_take]
      exact List.Nodup.sublist (List.take_sublist _ _) hnd2
    · intro hs
      show searchCore store distF simF q query k locale pts = []
      exact hempty (by rw [hs]; rfl)
    · exact hempty

theorem search_context_guarantees_witness :
    ((search_context (.ok [1]) [c3row] (fun _ _ => 0) (fun _ _ => 0) ("q".toList) 6
        ("es".toList) none).length ≤ 6)
    ∧ (((search_context (.ok [1]) [c3row] (fun _ _ => 0) (fun _ _ => 0) ("q".toList) 6
          ("es".toList) none).map (fun r => (r.doc_id, r.chunk_index))).Nodup)
    ∧ (([c3row] : List ChunkRow) = []
        → search_context (.ok [1]) [c3row] (fun _ _ => 0) (fun _ _ => 0) ("q".toList) 6
            ("es".toList) none = [])
    ∧ (([c3row] : List ChunkRow).filter (rowMatches ("es".toList) none) = []
        → search_context (.ok [1]) [c3row] (fun _ _ => 0) (fun _ _ => 0) ("q".toList) 6
            ("es".toList) none = []) :=
  search_context_guarantees (.ok [1]) [c3row] (fun _ _ => 0) (fun _ _ => 0) ("q".toList) 6
    ("es".toList) none

/-- Claim C8: the retrieval used by the answer-generation entry point
returns exactly the `top_k` stored chunks nearest to the query embedding by
vector distance ascending: its result is independent of the `locale`
argument, is a sorted-ascending selection of `min top_k |store|` rows taken
from the whole (unfiltered) table, and every selected row's distance is at
most every unselected row's distance. There is no locale filter and no
lexical pass. -/
theorem answer_retrieval_top_k (store : List ChunkRow) (distF : Option Vec → Vec → ℚ)
    (emb : Vec) (top_k : Nat) (l₁ l₂ : Str) :
    answer_retrieval (.ok emb) store distF top_k l₁
        = answer_retrieval (.ok emb) store distF top_k l₂
    ∧ ∃ res rest,
        answer_retrieval (.ok emb) store distF top_k l₁ = .ok res
        ∧ (store.map (ansRowOf distF emb)).Perm (res ++ rest)
        ∧ res.Pairwise (fun a b => a.dist ≤ b.dist)
        ∧ (∀ x ∈ res, ∀ y ∈ rest, x.dist ≤ y.dist)
        ∧ res.length = min top_k store.length := by
  haveI htot : IsTotal AnsRow (fun a b => a.dist ≤ b.dist) := ⟨fun a b => le_total _ _⟩
  haveI htr : IsTrans AnsRow (fun a b => a.dist ≤ b.dist) := ⟨fun a b c => le_trans⟩
  refine ⟨rfl, (List.insertionSort (fun a b : AnsRow => a.dist ≤ b.dist)
      (store.map (ansRowOf distF emb))).take top_k,
    (List.insertionSort (fun a b : AnsRow => a.dist ≤ b.dist)
      (store.map (ansRowOf distF emb))).drop top_k,
    rfl, ?_, ?_, ?_, ?_⟩
  · rw [List.take_append_drop]
    exact (List.perm_insertionSort _ _).symm
  · exact List.Pairwise.sublist (List.take_sublist _ _) (List.sorted_insertionSort _ _)
  · have hs := List.sorted_insertionSort (fun a b : AnsRow => a.dist ≤ b.dist)
      (store.map (ansRowOf distF emb))
    rw [List.Sorted, ← List.take_append_drop top_k
      (List.insertionSort (fun a b : AnsRow => a.dist ≤ b.dist) _), List.pairwise_append] at hs
    exact hs.2.2
  · simp
